import Mathlib

/-!
Shallow embedding of src/tabulator/tabulator.h (namespace tabulator).

The C++ header renders several NUL-terminated texts side by side as
left-aligned, word-wrapped columns.  A `column` holds a text and a target
width; a `colstate` is the per-column cursor: `cp` is the consume offset
into the text and `lp` the number of characters emitted on the current
output line.  The output stream is modelled as the list of characters
written; the variadic column pack is modelled as a list of columns.
-/

namespace tabulator

/-- The C++ `column` structure: `text` models the character data reachable
from the `p`/`size` pair (the characters before the terminating NUL), and
`width` the declared display width. -/
structure column where
  text : List Char
  width : Nat
deriving DecidableEq, Repr

/-- The C++ `colstate` structure: `cp` is the index in the whole column
text, `lp` the index in the currently emitted line. -/
structure colstate where
  cp : Nat
  lp : Nat
deriving DecidableEq, Repr

/-- The C++ `isws` helper: `isblank` in the default locale accepts exactly
the space and horizontal-tab characters. -/
def isws (ch : Char) : Bool :=
  ch == ' ' || ch == '\t'

/-- The scanning loop of `colstate::nextWordFits`: walk the remaining text
with counter `l`, answering `true` at the first blank met while
`l < colwidth`, `l < colwidth` at end of text, and `false` once `l` reaches
`colwidth` with text left. -/
def scanFits (colwidth : Nat) : List Char → Nat → Bool
  | [], l => decide (l < colwidth)
  | ch :: rest, l =>
    if l < colwidth then
      if isws ch then true else scanFits colwidth rest (l + 1)
    else false

/-- `colstate::nextWordFits`: the scan starts at index `cp` of the text
with the counter starting at `lp`. -/
def nextWordFits (c : column) (st : colstate) : Bool :=
  scanFits c.width (c.text.drop st.cp) st.lp

/-- `colstate::linebreak`: `ch` is a newline, or a blank whose following
word cannot be emitted on the current line. -/
def linebreak (ch : Char) (c : column) (st : colstate) : Bool :=
  ch == '\n' || (isws ch && !nextWordFits c st)

/-- `colstate::breakLine`: reset `lp`, keep `cp`. -/
def breakLine (st : colstate) : colstate :=
  ⟨st.cp, 0⟩

/-- `colstate::end` (named `atEnd` here since `end` is reserved):
the text is fully consumed. -/
def atEnd (c : column) (st : colstate) : Bool :=
  decide (c.text.length ≤ st.cp)

/-- The loop of `emit_col`, structurally recursive on the text remaining
after `st.cp` (the caller passes `c.text.drop st.cp`).  Each step consumes
one character (as `colstate::consume` does, advancing `cp`), then either
stops at a line break or emits the character (advancing `lp`).  The second
component collects the characters written to the stream. -/
def emitColAux (c : column) : List Char → colstate → colstate × List Char
  | [], st => (st, [])
  | ch :: rest, st =>
    if linebreak ch c ⟨st.cp + 1, st.lp⟩ then (⟨st.cp + 1, st.lp⟩, [])
    else
      let r := emitColAux c rest ⟨st.cp + 1, st.lp + 1⟩
      (r.1, ch :: r.2)

/-- `emit_col`: emit characters of the column from the cursor position
until a line break or the end of the text. -/
def emit_col (c : column) (st : colstate) : colstate × List Char :=
  emitColAux c (c.text.drop st.cp) st

/-- The padding step size of `switch_col`: 8 for a horizontal tab, else 1. -/
def fillStep (fill : Char) : Nat :=
  if fill = '\t' then 8 else 1

/-- The fill loop of `switch_col` (`for i = lp; i < colwidth; i += inc`),
written with explicit fuel so that it is structurally recursive; since the
step is at least 1, fuel `colwidth - lp` is always enough. -/
def padLoopF (colwidth inc : Nat) (fill : Char) : Nat → Nat → List Char
  | 0, _ => []
  | fuel + 1, i =>
    if i < colwidth then fill :: padLoopF colwidth inc fill fuel (i + inc)
    else []

/-- `switch_col`: emit fill characters up to `colwidth`, then the
separator. -/
def switch_col (st : colstate) (colwidth : Nat) (fill : Char) (sep : List Char) : List Char :=
  padLoopF colwidth (fillStep fill) fill (colwidth - st.lp) st.lp ++ sep

/-- One round of the inner loop of `tabulate` over the column list: emit
each column's segment, then (for every column but the last) the fill and
separator, and reset each column's `lp`.  Returns the updated states and
the characters written. -/
def emitLine (fill : Char) (sep : List Char) :
    List (column × colstate) → List (column × colstate) × List Char
  | [] => ([], [])
  | (c, st) :: rest =>
    let r := emit_col c st
    let contrib := if rest.isEmpty then r.2 else r.2 ++ switch_col r.1 c.width fill sep
    let r2 := emitLine fill sep rest
    ((c, breakLine r.1) :: r2.1, contrib ++ r2.2)

/-- `is_unconsumed`: some column still has unconsumed text. -/
def is_unconsumed (cs : List (column × colstate)) : Bool :=
  cs.any (fun p => !atEnd p.1 p.2)

/-- Total text remaining across all cursors; the outer loop of `tabulate`
strictly decreases it every round, so it serves as exact fuel. -/
def colsMeasure (cs : List (column × colstate)) : Nat :=
  (cs.map (fun p => p.1.text.length - p.2.cp)).sum

/-- The outer loop of `tabulate`, with fuel: while some column is
unconsumed, emit one line (all column segments, fills and separators)
followed by a newline. -/
def tabulateAux (sep : List Char) (fill : Char) : Nat → List (column × colstate) → List Char
  | 0, _ => []
  | n + 1, cs =>
    if is_unconsumed cs then
      let r := emitLine fill sep cs
      r.2 ++ '\n' :: tabulateAux sep fill n r.1
    else []

/-- Fresh cursors, one per column, as `tabulate` creates them
(`array<colstate,N> state` value-initialises every `cp`/`lp` to 0). -/
def initStates (cols : List column) : List (column × colstate) :=
  cols.map (fun c => (c, ⟨0, 0⟩))

/-- `tabulate(os, sep, fill, cols...)`: the characters written to the
stream.  The fuel `colsMeasure` is exact: the loop ends as soon as the
measure is zero, and every round decreases it by at least one. -/
def tabulate (sep : List Char) (fill : Char) (cols : List column) : List Char :=
  tabulateAux sep fill (colsMeasure (initStates cols)) (initStates cols)

/-- The state update a round applies to one column: run `emit_col`, then
`breakLine`. -/
def stepState (p : column × colstate) : column × colstate :=
  (p.1, breakLine (emit_col p.1 p.2).1)

/-- Number of rounds (output lines) of the outer loop, with fuel. -/
def tabulateRoundsAux : Nat → List (column × colstate) → Nat
  | 0, _ => 0
  | n + 1, cs =>
    if is_unconsumed cs then 1 + tabulateRoundsAux n (cs.map stepState) else 0

/-- Number of output lines `tabulate` produces for the given columns. -/
def tabulateRounds (cols : List column) : Nat :=
  tabulateRoundsAux (colsMeasure (initStates cols)) (initStates cols)

/-- Number of rounds a single column needs on its own from the given
state: the single-column instance of the outer loop. -/
def rounds1 (p : column × colstate) : Nat :=
  tabulateRoundsAux (p.1.text.length - p.2.cp) [p]

/-- The successive per-line segments a single column emits: the trace of
`emit_col`/`breakLine` a column goes through across the rounds of
`tabulate`, with fuel. -/
def colSegmentsAux (c : column) : Nat → colstate → List (List Char)
  | 0, _ => []
  | n + 1, st =>
    if st.cp < c.text.length then
      (emit_col c st).2 :: colSegmentsAux c n (breakLine (emit_col c st).1)
    else []

/-- The per-line segments of a column starting from fresh state. -/
def colSegments (c : column) : List (List Char) :=
  colSegmentsAux c c.text.length ⟨0, 0⟩

/-- The overload `tabulate(os, sep, cols...)`: fill defaults to space. -/
def tabulateSepOnly (sep : List Char) (cols : List column) : List Char :=
  tabulate sep ' ' cols

/-- The overload `tabulate(os, cols...)`: separator defaults to a single
space, fill to space. -/
def tabulateDefault (cols : List column) : List Char :=
  tabulate [' '] ' ' cols

/-- A character at which a line break can occur: a newline or a blank. -/
def brkChar (ch : Char) : Bool :=
  ch == '\n' || isws ch

/-- Length of the next word as the specification describes it: the run of
characters starting at the current `consume_pos`, up to the next blank or
the end of the text. -/
def specNextWordLen (c : column) (st : colstate) : Nat :=
  ((c.text.drop st.cp).takeWhile (fun ch => !isws ch)).length

/-- The specification's "fits" test, via its closed form: the scan of the
next word succeeds exactly when the counter, started at `line_pos`, meets
a blank or the end of text while still below `width`. -/
def spec_word_fits (c : column) (st : colstate) : Prop :=
  st.lp + specNextWordLen c st < c.width

/-- The specification's `would_break`: a line-terminator character, or a
blank whose following word does not fit. -/
def spec_would_break (ch : Char) (c : column) (st : colstate) : Prop :=
  ch = '\n' ∨ (isws ch = true ∧ ¬ spec_word_fits c st)

/-- Maximum of a list of naturals (0 for the empty list). -/
def listMax : List Nat → Nat
  | [] => 0
  | x :: t => max x (listMax t)

/-- The contiguous block of the text from position `a` (inclusive) to `b`
(exclusive): the characters of one word when `[a, b)` is a word's span. -/
def wordSlice (c : column) (a b : Nat) : List Char :=
  (c.text.drop a).take (b - a)

end tabulator

namespace tabulator

theorem scanFits_iff (w : Nat) : ∀ (l : List Char) (k : Nat),
    scanFits w l k = true ↔ k + (l.takeWhile (fun ch => !isws ch)).length < w := by
  intro l
  induction l with
  | nil => intro k; simp [scanFits]
  | cons ch rest ih =>
    intro k
    rw [List.takeWhile_cons]
    by_cases hws : isws ch = true
    · by_cases hk : k < w <;> simp [scanFits, hws, hk]
    · rw [Bool.not_eq_true] at hws
      by_cases hk : k < w
      · simp only [scanFits, hk, if_true, hws, Bool.false_eq_true, if_false, ih,
          Bool.not_false, List.length_cons]
        omega
      · simp only [scanFits, hk, if_false, hws, Bool.not_false, if_true,
          List.length_cons, Bool.false_eq_true, false_iff]
        omega

theorem emitColAux_cp_mono (c : column) : ∀ (l : List Char) (st : colstate),
    st.cp ≤ (emitColAux c l st).1.cp := by
  intro l
  induction l with
  | nil => intro st; exact Nat.le_refl _
  | cons ch rest ih =>
    intro st
    unfold emitColAux
    by_cases h : linebreak ch c ⟨st.cp + 1, st.lp⟩ = true
    · rw [if_pos h]
      exact Nat.le_succ st.cp
    · rw [if_neg h]
      have h2 : st.cp + 1 ≤ (emitColAux c rest ⟨st.cp + 1, st.lp + 1⟩).1.cp :=
        ih ⟨st.cp + 1, st.lp + 1⟩
      show st.cp ≤ (emitColAux c rest ⟨st.cp + 1, st.lp + 1⟩).1.cp
      omega

theorem emitColAux_cons_cp (c : column) (ch : Char) (rest : List Char) (st : colstate) :
    st.cp + 1 ≤ (emitColAux c (ch :: rest) st).1.cp := by
  unfold emitColAux
  by_cases h : linebreak ch c ⟨st.cp + 1, st.lp⟩ = true
  · rw [if_pos h]
  · rw [if_neg h]
    exact emitColAux_cp_mono c rest ⟨st.cp + 1, st.lp + 1⟩

theorem emitColAux_cp_le (c : column) : ∀ (l : List Char) (st : colstate),
    (emitColAux c l st).1.cp ≤ st.cp + l.length := by
  intro l
  induction l with
  | nil => intro st; exact Nat.le_add_right _ _
  | cons ch rest ih =>
    intro st
    unfold emitColAux
    by_cases h : linebreak ch c ⟨st.cp + 1, st.lp⟩ = true
    · rw [if_pos h]
      show st.cp + 1 ≤ st.cp + (ch :: rest).length
      simp
    · rw [if_neg h]
      have h2 : (emitColAux c rest ⟨st.cp + 1, st.lp + 1⟩).1.cp ≤ st.cp + 1 + rest.length :=
        ih ⟨st.cp + 1, st.lp + 1⟩
      show (emitColAux c rest ⟨st.cp + 1, st.lp + 1⟩).1.cp ≤ st.cp + (ch :: rest).length
      simp only [List.length_cons]
      omega

theorem emitColAux_lp_len (c : column) : ∀ (l : List Char) (st : colstate),
    (emitColAux c l st).1.lp = st.lp + (emitColAux c l st).2.length := by
  intro l
  induction l with
  | nil => intro st; simp [emitColAux]
  | cons ch rest ih =>
    intro st
    unfold emitColAux
    by_cases h : linebreak ch c ⟨st.cp + 1, st.lp⟩ = true
    · rw [if_pos h]
      simp
    · rw [if_neg h]
      have h2 : (emitColAux c rest ⟨st.cp + 1, st.lp + 1⟩).1.lp =
          st.lp + 1 + (emitColAux c rest ⟨st.cp + 1, st.lp + 1⟩).2.length :=
        ih ⟨st.cp + 1, st.lp + 1⟩
      show (emitColAux c rest ⟨st.cp + 1, st.lp + 1⟩).1.lp =
          st.lp + (ch :: (emitColAux c rest ⟨st.cp + 1, st.lp + 1⟩).2).length
      simp only [List.length_cons]
      omega

/-- C1: the line-break decision matches the reference algorithm of the
specification: `linebreak` answers true exactly when the character is the
line terminator, or is a blank such that the next word, scanned forward
from the current consume position with a counter started at the current
line position, would not fit within the column width. -/
theorem C1_would_break_matches_spec (ch : Char) (c : column) (st : colstate) :
    linebreak ch c st = true ↔ spec_would_break ch c st := by
  have hfits : nextWordFits c st = true ↔ spec_word_fits c st := by
    unfold nextWordFits spec_word_fits specNextWordLen
    exact scanFits_iff c.width (c.text.drop st.cp) st.lp
  have hnot : nextWordFits c st = false ↔ ¬ spec_word_fits c st := by
    rw [← hfits, Bool.eq_false_iff]
  unfold linebreak spec_would_break
  rw [Bool.or_eq_true, Bool.and_eq_true, beq_iff_eq, Bool.not_eq_true', hnot]

end tabulator

namespace tabulator

theorem emit_col_advance (c : column) (st : colstate) (h : st.cp < c.text.length) :
    st.cp + 1 ≤ (emit_col c st).1.cp := by
  unfold emit_col
  rw [List.drop_eq_getElem_cons h]
  exact emitColAux_cons_cp c _ _ st

theorem emit_col_cp_mono (c : column) (st : colstate) : st.cp ≤ (emit_col c st).1.cp :=
  emitColAux_cp_mono c (c.text.drop st.cp) st

theorem emit_col_cp_le_len (c : column) (st : colstate) (h : st.cp ≤ c.text.length) :
    (emit_col c st).1.cp ≤ c.text.length := by
  have h1 := emitColAux_cp_le c (c.text.drop st.cp) st
  have h2 : (c.text.drop st.cp).length = c.text.length - st.cp := List.length_drop _ _
  unfold emit_col
  omega

theorem emit_col_at_end (c : column) (st : colstate) (h : c.text.length ≤ st.cp) :
    emit_col c st = (st, []) := by
  unfold emit_col
  rw [List.drop_eq_nil_of_le h]
  rfl

theorem emitColAux_no_nl (c : column) : ∀ (l : List Char) (st : colstate),
    '\n' ∉ (emitColAux c l st).2 := by
  intro l
  induction l with
  | nil => intro st; simp [emitColAux]
  | cons ch rest ih =>
    intro st
    unfold emitColAux
    by_cases h : linebreak ch c ⟨st.cp + 1, st.lp⟩ = true
    · rw [if_pos h]
      simp
    · rw [if_neg h]
      show '\n' ∉ ch :: (emitColAux c rest ⟨st.cp + 1, st.lp + 1⟩).2
      have hch : ch ≠ '\n' := by
        intro he
        apply h
        unfold linebreak
        rw [he]
        simp
      simp only [List.mem_cons, not_or]
      exact ⟨fun he => hch he.symm, ih ⟨st.cp + 1, st.lp + 1⟩⟩

theorem padLoopF_one (colwidth : Nat) (fill : Char) : ∀ (fuel i : Nat), colwidth - i ≤ fuel →
    padLoopF colwidth 1 fill fuel i = List.replicate (colwidth - i) fill := by
  intro fuel
  induction fuel with
  | zero =>
    intro i hi
    have h0 : colwidth - i = 0 := Nat.le_zero.mp hi
    rw [h0]
    rfl
  | succ n ih =>
    intro i hi
    unfold padLoopF
    by_cases h : i < colwidth
    · rw [if_pos h, ih (i + 1) (by omega)]
      have he : colwidth - i = (colwidth - (i + 1)) + 1 := by omega
      rw [he, List.replicate_succ]
    · rw [if_neg h]
      have h0 : colwidth - i = 0 := by omega
      rw [h0]
      rfl

theorem padLoopF_eight (colwidth : Nat) (fill : Char) : ∀ (fuel i : Nat), colwidth - i ≤ fuel →
    padLoopF colwidth 8 fill fuel i = List.replicate ((colwidth - i + 7) / 8) fill := by
  intro fuel
  induction fuel with
  | zero =>
    intro i hi
    have h0 : (colwidth - i + 7) / 8 = 0 := by omega
    rw [h0]
    rfl
  | succ n ih =>
    intro i hi
    unfold padLoopF
    by_cases h : i < colwidth
    · rw [if_pos h, ih (i + 8) (by omega)]
      have he : (colwidth - i + 7) / 8 = ((colwidth - (i + 8) + 7) / 8) + 1 := by omega
      rw [he, List.replicate_succ]
    · rw [if_neg h]
      have h0 : (colwidth - i + 7) / 8 = 0 := by omega
      rw [h0]
      rfl

theorem padLoopF_mem (colwidth inc : Nat) (fill : Char) : ∀ (fuel i : Nat),
    ∀ x ∈ padLoopF colwidth inc fill fuel i, x = fill := by
  intro fuel
  induction fuel with
  | zero => intro i x hx; simp [padLoopF] at hx
  | succ n ih =>
    intro i x hx
    unfold padLoopF at hx
    by_cases h : i < colwidth
    · rw [if_pos h] at hx
      rcases List.mem_cons.mp hx with h1 | h2
      · exact h1
      · exact ih (i + inc) x h2
    · rw [if_neg h] at hx
      simp at hx

theorem switch_col_eq (st : colstate) (colwidth : Nat) (fill : Char) (sep : List Char)
    (h : fill ≠ '\t') :
    switch_col st colwidth fill sep = List.replicate (colwidth - st.lp) fill ++ sep := by
  unfold switch_col fillStep
  rw [if_neg h, padLoopF_one colwidth fill (colwidth - st.lp) st.lp (Nat.le_refl _)]

theorem switch_col_tab (st : colstate) (colwidth : Nat) (sep : List Char) :
    switch_col st colwidth '\t' sep =
      List.replicate ((colwidth - st.lp + 7) / 8) '\t' ++ sep := by
  unfold switch_col fillStep
  rw [if_pos rfl, padLoopF_eight colwidth '\t' (colwidth - st.lp) st.lp (Nat.le_refl _)]

theorem switch_col_no_nl (st : colstate) (colwidth : Nat) (fill : Char) (sep : List Char)
    (hf : fill ≠ '\n') (hs : '\n' ∉ sep) : '\n' ∉ switch_col st colwidth fill sep := by
  unfold switch_col
  intro hmem
  rcases List.mem_append.mp hmem with h1 | h2
  · exact hf (padLoopF_mem colwidth (fillStep fill) fill (colwidth - st.lp) st.lp '\n' h1).symm
  · exact hs h2

theorem emitLine_cons (fill : Char) (sep : List Char) (c : column) (st : colstate)
    (rest : List (column × colstate)) :
    emitLine fill sep ((c, st) :: rest) =
      ((c, breakLine (emit_col c st).1) :: (emitLine fill sep rest).1,
        (if rest.isEmpty then (emit_col c st).2
          else (emit_col c st).2 ++ switch_col (emit_col c st).1 c.width fill sep)
          ++ (emitLine fill sep rest).2) := rfl

theorem emitLine_fst (fill : Char) (sep : List Char) : ∀ (cs : List (column × colstate)),
    (emitLine fill sep cs).1 = cs.map stepState := by
  intro cs
  induction cs with
  | nil => rfl
  | cons p rest ih =>
    obtain ⟨c, st⟩ := p
    rw [emitLine_cons]
    show (c, breakLine (emit_col c st).1) :: (emitLine fill sep rest).1 =
      stepState (c, st) :: rest.map stepState
    rw [ih]
    rfl

theorem emitLine_no_nl (fill : Char) (sep : List Char) (hf : fill ≠ '\n') (hs : '\n' ∉ sep) :
    ∀ (cs : List (column × colstate)), '\n' ∉ (emitLine fill sep cs).2 := by
  intro cs
  induction cs with
  | nil => simp [emitLine]
  | cons p rest ih =>
    obtain ⟨c, st⟩ := p
    rw [emitLine_cons]
    intro hmem
    rcases List.mem_append.mp hmem with h1 | h2
    · by_cases hr : rest.isEmpty
      · rw [if_pos hr] at h1
        exact emitColAux_no_nl c _ st h1
      · rw [if_neg hr] at h1
        rcases List.mem_append.mp h1 with h3 | h4
        · exact emitColAux_no_nl c _ st h3
        · exact switch_col_no_nl _ _ _ _ hf hs h4
    · exact ih h2

end tabulator

namespace tabulator

theorem stepState_fst (p : column × colstate) : (stepState p).1 = p.1 := rfl

theorem stepState_cp (p : column × colstate) : (stepState p).2.cp = (emit_col p.1 p.2).1.cp := rfl

theorem stepState_lp (p : column × colstate) : (stepState p).2.lp = 0 := rfl

theorem stepState_cp_mono (p : column × colstate) : p.2.cp ≤ (stepState p).2.cp :=
  emit_col_cp_mono p.1 p.2

theorem stepState_advance (p : column × colstate) (h : p.2.cp < p.1.text.length) :
    p.2.cp + 1 ≤ (stepState p).2.cp :=
  emit_col_advance p.1 p.2 h

theorem colsMeasure_cons (p : column × colstate) (rest : List (column × colstate)) :
    colsMeasure (p :: rest) = (p.1.text.length - p.2.cp) + colsMeasure rest := by
  unfold colsMeasure
  rw [List.map_cons, List.sum_cons]

theorem colsMeasure_map_le : ∀ (cs : List (column × colstate)),
    colsMeasure (cs.map stepState) ≤ colsMeasure cs := by
  intro cs
  induction cs with
  | nil => exact Nat.le_refl _
  | cons p rest ih =>
    rw [List.map_cons, colsMeasure_cons, colsMeasure_cons]
    have h1 := stepState_cp_mono p
    have h2 : (stepState p).1.text.length = p.1.text.length := by rw [stepState_fst]
    omega

theorem colsMeasure_lt : ∀ (cs : List (column × colstate)), is_unconsumed cs = true →
    colsMeasure (cs.map stepState) < colsMeasure cs := by
  intro cs
  induction cs with
  | nil => intro h; simp [is_unconsumed] at h
  | cons p rest ih =>
    intro h
    unfold is_unconsumed at h
    rw [List.any_cons, Bool.or_eq_true] at h
    rw [List.map_cons, colsMeasure_cons, colsMeasure_cons]
    have h2 : (stepState p).1.text.length = p.1.text.length := by rw [stepState_fst]
    rcases h with h1 | h1
    · simp only [Bool.not_eq_eq_eq_not, Bool.not_true, atEnd, decide_eq_false_iff_not,
        not_le] at h1
      have h3 := stepState_advance p h1
      have h4 := colsMeasure_map_le rest
      omega
    · have h3 := ih h1
      have h4 := stepState_cp_mono p
      omega

theorem is_unconsumed_iff : ∀ (cs : List (column × colstate)),
    is_unconsumed cs = true ↔ 0 < colsMeasure cs := by
  intro cs
  induction cs with
  | nil => simp [is_unconsumed, colsMeasure]
  | cons p rest ih =>
    unfold is_unconsumed
    rw [List.any_cons, Bool.or_eq_true, colsMeasure_cons]
    unfold is_unconsumed at ih
    constructor
    · rintro (h1 | h1)
      · simp only [Bool.not_eq_eq_eq_not, Bool.not_true, atEnd, decide_eq_false_iff_not,
          not_le] at h1
        omega
      · have := ih.mp h1
        omega
    · intro h
      by_cases hend : p.1.text.length ≤ p.2.cp
      · right
        apply ih.mpr
        omega
      · left
        simp only [Bool.not_eq_eq_eq_not, Bool.not_true, atEnd, decide_eq_false_iff_not, not_le]
        omega

theorem tabulateAux_zero (sep : List Char) (fill : Char) (cs : List (column × colstate)) :
    tabulateAux sep fill 0 cs = [] := rfl

theorem tabulateAux_succ (sep : List Char) (fill : Char) (n : Nat)
    (cs : List (column × colstate)) :
    tabulateAux sep fill (n + 1) cs =
      if is_unconsumed cs then
        (emitLine fill sep cs).2 ++ '\n' :: tabulateAux sep fill n (emitLine fill sep cs).1
      else [] := rfl

theorem tabulateRoundsAux_succ (n : Nat) (cs : List (column × colstate)) :
    tabulateRoundsAux (n + 1) cs =
      if is_unconsumed cs then 1 + tabulateRoundsAux n (cs.map stepState) else 0 := rfl

theorem not_unconsumed_of_measure_zero (cs : List (column × colstate))
    (h : colsMeasure cs = 0) : is_unconsumed cs = false := by
  rw [← Bool.not_eq_true, is_unconsumed_iff]
  omega

theorem tabulateAux_stable (sep : List Char) (fill : Char) : ∀ (n : Nat)
    (cs : List (column × colstate)), colsMeasure cs ≤ n →
    tabulateAux sep fill (n + 1) cs = tabulateAux sep fill n cs := by
  intro n
  induction n with
  | zero =>
    intro cs h
    have hu := not_unconsumed_of_measure_zero cs (Nat.le_zero.mp h)
    rw [tabulateAux_succ, tabulateAux_zero, hu]
    rfl
  | succ n ih =>
    intro cs h
    rw [tabulateAux_succ sep fill (n + 1) cs, tabulateAux_succ sep fill n cs]
    by_cases hu : is_unconsumed cs = true
    · rw [if_pos hu, if_pos hu]
      have hlt := colsMeasure_lt cs hu
      have hm : colsMeasure (emitLine fill sep cs).1 ≤ n := by
        rw [emitLine_fst]
        omega
      rw [ih (emitLine fill sep cs).1 hm]
    · rw [if_neg hu, if_neg hu]

theorem tabulateAux_add (sep : List Char) (fill : Char) : ∀ (k n : Nat)
    (cs : List (column × colstate)), colsMeasure cs ≤ n →
    tabulateAux sep fill (n + k) cs = tabulateAux sep fill n cs := by
  intro k
  induction k with
  | zero => intro n cs _; rfl
  | succ k ih =>
    intro n cs h
    have h1 : n + (k + 1) = (n + k) + 1 := by omega
    rw [h1, tabulateAux_stable sep fill (n + k) cs (by omega), ih n cs h]

theorem tabulateAux_of_le (sep : List Char) (fill : Char) (n m : Nat)
    (cs : List (column × colstate)) (h1 : colsMeasure cs ≤ m) (h2 : m ≤ n) :
    tabulateAux sep fill n cs = tabulateAux sep fill m cs := by
  have he : n = m + (n - m) := by omega
  rw [he, tabulateAux_add sep fill (n - m) m cs h1]

theorem tabulateRoundsAux_stable : ∀ (n : Nat) (cs : List (column × colstate)),
    colsMeasure cs ≤ n → tabulateRoundsAux (n + 1) cs = tabulateRoundsAux n cs := by
  intro n
  induction n with
  | zero =>
    intro cs h
    have hu := not_unconsumed_of_measure_zero cs (Nat.le_zero.mp h)
    rw [tabulateRoundsAux_succ, hu]
    rfl
  | succ n ih =>
    intro cs h
    rw [tabulateRoundsAux_succ (n + 1) cs, tabulateRoundsAux_succ n cs]
    by_cases hu : is_unconsumed cs = true
    · rw [if_pos hu, if_pos hu]
      have hlt := colsMeasure_lt cs hu
      rw [ih (cs.map stepState) (by omega)]
    · rw [if_neg hu, if_neg hu]

theorem tabulateRoundsAux_add : ∀ (k n : Nat) (cs : List (column × colstate)),
    colsMeasure cs ≤ n → tabulateRoundsAux (n + k) cs = tabulateRoundsAux n cs := by
  intro k
  induction k with
  | zero => intro n cs _; rfl
  | succ k ih =>
    intro n cs h
    have h1 : n + (k + 1) = (n + k) + 1 := by omega
    rw [h1, tabulateRoundsAux_stable (n + k) cs (by omega), ih n cs h]

theorem tabulateRoundsAux_of_le (n m : Nat) (cs : List (column × colstate))
    (h1 : colsMeasure cs ≤ m) (h2 : m ≤ n) :
    tabulateRoundsAux n cs = tabulateRoundsAux m cs := by
  have he : n = m + (n - m) := by omega
  rw [he, tabulateRoundsAux_add (n - m) m cs h1]

theorem tabulateRoundsAux_le : ∀ (n : Nat) (cs : List (column × colstate)),
    tabulateRoundsAux n cs ≤ n := by
  intro n
  induction n with
  | zero => intro cs; exact Nat.le_refl _
  | succ n ih =>
    intro cs
    rw [tabulateRoundsAux_succ]
    by_cases hu : is_unconsumed cs = true
    · rw [if_pos hu]
      have := ih (cs.map stepState)
      omega
    · rw [if_neg hu]
      omega

end tabulator

namespace tabulator

theorem colsMeasure_singleton (p : column × colstate) :
    colsMeasure [p] = p.1.text.length - p.2.cp := by
  unfold colsMeasure
  simp

theorem rounds1_end (p : column × colstate) (h : p.1.text.length ≤ p.2.cp) : rounds1 p = 0 := by
  unfold rounds1
  have h0 : p.1.text.length - p.2.cp = 0 := by omega
  rw [h0]
  rfl

theorem rounds1_step (p : column × colstate) (h : p.2.cp < p.1.text.length) :
    rounds1 p = 1 + rounds1 (stepState p) := by
  unfold rounds1
  have h1 : p.1.text.length - p.2.cp = (p.1.text.length - p.2.cp - 1) + 1 := by omega
  rw [h1, tabulateRoundsAux_succ]
  have hu : is_unconsumed [p] = true := by
    unfold is_unconsumed atEnd
    simp
    omega
  rw [if_pos hu]
  congr 1
  have hmap : List.map stepState [p] = [stepState p] := rfl
  rw [hmap]
  have hadv := stepState_advance p h
  have hcm : colsMeasure [stepState p] = (stepState p).1.text.length - (stepState p).2.cp :=
    colsMeasure_singleton (stepState p)
  have hfst : (stepState p).1.text.length = p.1.text.length := by rw [stepState_fst]
  exact tabulateRoundsAux_of_le _ _ _ (le_of_eq hcm) (by omega)

theorem rounds1_stepState_end (p : column × colstate) (h : p.1.text.length ≤ p.2.cp) :
    rounds1 (stepState p) = 0 := by
  apply rounds1_end
  rw [stepState_fst, stepState_cp, emit_col_at_end p.1 p.2 h]
  exact h

theorem listMax_cons (x : Nat) (t : List Nat) : listMax (x :: t) = max x (listMax t) := rfl

theorem listMax_eq_zero (l : List Nat) (h : ∀ x ∈ l, x = 0) : listMax l = 0 := by
  induction l with
  | nil => rfl
  | cons x t ih =>
    rw [listMax_cons, ih (fun y hy => h y (List.mem_cons_of_mem x hy)),
      h x (List.mem_cons_self x t)]
    simp

theorem listMax_le (l : List Nat) (b : Nat) (h : ∀ x ∈ l, x ≤ b) : listMax l ≤ b := by
  induction l with
  | nil => exact Nat.zero_le b
  | cons x t ih =>
    rw [listMax_cons]
    have h1 := h x (List.mem_cons_self x t)
    have h2 := ih (fun y hy => h y (List.mem_cons_of_mem x hy))
    omega

theorem all_end_of_not_unconsumed (t : List (column × colstate))
    (h : ¬ is_unconsumed t = true) : ∀ q ∈ t, q.1.text.length ≤ q.2.cp := by
  intro q hq
  rw [Bool.not_eq_true] at h
  unfold is_unconsumed at h
  rw [List.any_eq_false] at h
  have h2 := h q hq
  simp [atEnd] at h2
  exact h2

theorem listMax_rounds_shift : ∀ (l : List (column × colstate)), is_unconsumed l = true →
    listMax (l.map rounds1) = 1 + listMax (l.map (fun p => rounds1 (stepState p))) := by
  intro l
  induction l with
  | nil => intro h; simp [is_unconsumed] at h
  | cons p t ih =>
    intro h
    rw [List.map_cons, List.map_cons, listMax_cons, listMax_cons]
    unfold is_unconsumed at h
    rw [List.any_cons, Bool.or_eq_true] at h
    by_cases hp : p.2.cp < p.1.text.length
    · rw [rounds1_step p hp]
      by_cases ht : is_unconsumed t = true
      · unfold is_unconsumed at ht
        rw [ih ht]
        omega
      · have h0 : listMax (t.map rounds1) = 0 := by
          apply listMax_eq_zero
          intro x hx
          rcases List.mem_map.mp hx with ⟨q, hq, hqe⟩
          rw [← hqe]
          exact rounds1_end q (all_end_of_not_unconsumed t ht q hq)
        have h0s : listMax (t.map (fun p => rounds1 (stepState p))) = 0 := by
          apply listMax_eq_zero
          intro x hx
          rcases List.mem_map.mp hx with ⟨q, hq, hqe⟩
          rw [← hqe]
          exact rounds1_stepState_end q (all_end_of_not_unconsumed t ht q hq)
        rw [h0, h0s]
        omega
    · have hp2 : p.1.text.length ≤ p.2.cp := by omega
      rw [rounds1_end p hp2, rounds1_stepState_end p hp2]
      have ht : is_unconsumed t = true := by
        rcases h with h1 | h1
        · exfalso
          simp [atEnd] at h1
          omega
        · exact h1
      rw [ih ht]
      omega

theorem all_end_of_measure_zero (cs : List (column × colstate)) (h : colsMeasure cs = 0) :
    ∀ q ∈ cs, q.1.text.length ≤ q.2.cp := by
  apply all_end_of_not_unconsumed
  rw [not_unconsumed_of_measure_zero cs h]
  exact Bool.false_ne_true

theorem tabulateRoundsAux_eq_listMax : ∀ (n : Nat) (cs : List (column × colstate)),
    colsMeasure cs ≤ n → tabulateRoundsAux n cs = listMax (cs.map rounds1) := by
  intro n
  induction n with
  | zero =>
    intro cs h
    have h0 : colsMeasure cs = 0 := by omega
    rw [show tabulateRoundsAux 0 cs = 0 from rfl]
    symm
    apply listMax_eq_zero
    intro x hx
    rcases List.mem_map.mp hx with ⟨q, hq, hqe⟩
    rw [← hqe]
    exact rounds1_end q (all_end_of_measure_zero cs h0 q hq)
  | succ n ih =>
    intro cs h
    rw [tabulateRoundsAux_succ]
    by_cases hu : is_unconsumed cs = true
    · rw [if_pos hu]
      have hlt := colsMeasure_lt cs hu
      rw [ih (cs.map stepState) (by omega), List.map_map, listMax_rounds_shift cs hu]
      rfl
    · rw [if_neg hu]
      symm
      apply listMax_eq_zero
      intro x hx
      rcases List.mem_map.mp hx with ⟨q, hq, hqe⟩
      rw [← hqe]
      exact rounds1_end q (all_end_of_not_unconsumed cs hu q hq)

theorem count_nl_tabulateAux (sep : List Char) (fill : Char) (hf : fill ≠ '\n')
    (hs : '\n' ∉ sep) : ∀ (n : Nat) (cs : List (column × colstate)),
    (tabulateAux sep fill n cs).count '\n' = tabulateRoundsAux n cs := by
  intro n
  induction n with
  | zero => intro cs; rfl
  | succ n ih =>
    intro cs
    rw [tabulateAux_succ, tabulateRoundsAux_succ]
    by_cases hu : is_unconsumed cs = true
    · rw [if_pos hu, if_pos hu, List.count_append, List.count_cons]
      have h0 : (emitLine fill sep cs).2.count '\n' = 0 :=
        List.count_eq_zero.mpr (emitLine_no_nl fill sep hf hs cs)
      rw [h0, emitLine_fst fill sep cs, ih (cs.map stepState)]
      simp
      omega
    · rw [if_neg hu, if_neg hu]
      rfl

end tabulator

namespace tabulator

theorem le_listMax (l : List Nat) : ∀ x ∈ l, x ≤ listMax l := by
  induction l with
  | nil => intro x hx; simp at hx
  | cons y t ih =>
    intro x hx
    rw [listMax_cons]
    rcases List.mem_cons.mp hx with h1 | h1
    · rw [h1]
      omega
    · have := ih x h1
      omega

theorem rounds1_le_len (p : column × colstate) : rounds1 p ≤ p.1.text.length := by
  unfold rounds1
  have := tabulateRoundsAux_le (p.1.text.length - p.2.cp) [p]
  omega

/-- C2: the algorithm terminates on every finite input: `emit_col` advances
the consume offset of a non-exhausted column by at least one, the loop is
insensitive to any fuel at least the remaining-character measure (so it
reaches its fixed point, i.e. terminates), and the number of rounds is
bounded by the longest column's text length. -/
theorem C2_termination_and_progress :
    (∀ (c : column) (st : colstate), st.cp < c.text.length →
      st.cp + 1 ≤ (emit_col c st).1.cp) ∧
    (∀ (sep : List Char) (fill : Char) (cols : List column) (n : Nat),
      colsMeasure (initStates cols) ≤ n →
      tabulateAux sep fill n (initStates cols) = tabulate sep fill cols) ∧
    (∀ (cols : List column), (∀ c ∈ cols, 1 ≤ c.width) →
      tabulateRounds cols ≤ listMax (cols.map (fun c => c.text.length))) := by
  refine ⟨fun c st h => emit_col_advance c st h, ?_, ?_⟩
  · intro sep fill cols n h
    unfold tabulate
    exact tabulateAux_of_le sep fill n _ _ (Nat.le_refl _) h
  · intro cols _
    unfold tabulateRounds
    rw [tabulateRoundsAux_eq_listMax _ _ (Nat.le_refl _)]
    unfold initStates
    rw [List.map_map]
    apply listMax_le
    intro x hx
    rcases List.mem_map.mp hx with ⟨c, hc, hce⟩
    have h1 : x ≤ c.text.length := by
      rw [← hce]
      exact rounds1_le_len (c, ⟨0, 0⟩)
    have h2 : c.text.length ≤ listMax (cols.map (fun c => c.text.length)) :=
      le_listMax _ _ (List.mem_map.mpr ⟨c, hc, rfl⟩)
    omega

theorem C2_termination_and_progress_witness :
    0 + 1 ≤ (emit_col (column.mk ['a', 'b'] 3) (colstate.mk 0 0)).1.cp ∧
    tabulateAux [' '] ' ' 9 (initStates [column.mk ['a', 'b'] 3]) =
      tabulate [' '] ' ' [column.mk ['a', 'b'] 3] ∧
    tabulateRounds [column.mk ['a', 'b'] 3] ≤
      listMax ([column.mk ['a', 'b'] 3].map (fun c => c.text.length)) :=
  ⟨C2_termination_and_progress.1 (column.mk ['a', 'b'] 3) (colstate.mk 0 0) (by decide),
   C2_termination_and_progress.2.1 [' '] ' ' [column.mk ['a', 'b'] 3] 9 (by decide),
   C2_termination_and_progress.2.2 [column.mk ['a', 'b'] 3] (by decide)⟩

/-- C5: on every line every non-last column is padded after its segment
with fill characters up to its width (exactly width minus line position of
them for a non-tab fill, a step of 8 per fill character for a tab fill)
followed by the separator, while the last column gets neither. -/
theorem C5_fill_and_separator :
    (∀ (st : colstate) (colwidth : Nat) (fill : Char) (sep : List Char), fill ≠ '\t' →
      switch_col st colwidth fill sep = List.replicate (colwidth - st.lp) fill ++ sep) ∧
    (∀ (st : colstate) (colwidth : Nat) (sep : List Char),
      switch_col st colwidth '\t' sep =
        List.replicate ((colwidth - st.lp + 7) / 8) '\t' ++ sep) ∧
    (∀ (fill : Char) (sep : List Char) (c : column) (st : colstate)
        (rest : List (column × colstate)), rest ≠ [] →
      (emitLine fill sep ((c, st) :: rest)).2 =
        (emit_col c st).2 ++ (switch_col (emit_col c st).1 c.width fill sep
          ++ (emitLine fill sep rest).2)) ∧
    (∀ (fill : Char) (sep : List Char) (c : column) (st : colstate),
      (emitLine fill sep [(c, st)]).2 = (emit_col c st).2) := by
  refine ⟨fun st w fill sep h => switch_col_eq st w fill sep h,
    fun st w sep => switch_col_tab st w sep, ?_, ?_⟩
  · intro fill sep c st rest hr
    cases rest with
    | nil => exact absurd rfl hr
    | cons q tail =>
      rw [emitLine_cons]
      show ((emit_col c st).2 ++ switch_col (emit_col c st).1 c.width fill sep)
          ++ (emitLine fill sep (q :: tail)).2 = _
      rw [List.append_assoc]
  · intro fill sep c st
    rw [emitLine_cons]
    show (emit_col c st).2 ++ [] = (emit_col c st).2
    exact List.append_nil _

theorem C5_fill_and_separator_witness :
    switch_col (colstate.mk 0 2) 5 ' ' ['|'] = List.replicate (5 - 2) ' ' ++ ['|'] ∧
    switch_col (colstate.mk 0 2) 20 '\t' ['|'] =
      List.replicate ((20 - 2 + 7) / 8) '\t' ++ ['|'] ∧
    (emitLine ' ' ['|'] [(column.mk ['a'] 2, colstate.mk 0 0),
        (column.mk ['b'] 2, colstate.mk 0 0)]).2 =
      (emit_col (column.mk ['a'] 2) (colstate.mk 0 0)).2 ++
        (switch_col (emit_col (column.mk ['a'] 2) (colstate.mk 0 0)).1 2 ' ' ['|'] ++
          (emitLine ' ' ['|'] [(column.mk ['b'] 2, colstate.mk 0 0)]).2) ∧
    (emitLine ' ' ['|'] [(column.mk ['b'] 2, colstate.mk 0 0)]).2 =
      (emit_col (column.mk ['b'] 2) (colstate.mk 0 0)).2 :=
  ⟨C5_fill_and_separator.1 (colstate.mk 0 2) 5 ' ' ['|'] (by decide),
   C5_fill_and_separator.2.1 (colstate.mk 0 2) 20 ['|'],
   C5_fill_and_separator.2.2.1 ' ' ['|'] (column.mk ['a'] 2) (colstate.mk 0 0)
     [(column.mk ['b'] 2, colstate.mk 0 0)] (by decide),
   C5_fill_and_separator.2.2.2 ' ' ['|'] (column.mk ['b'] 2) (colstate.mk 0 0)⟩

/-- C6: for newline-free fill and separator, the number of newline-ended
lines `tabulate` writes equals the largest number of lines any single
column would produce on its own at its width. -/
theorem C6_line_count (sep : List Char) (fill : Char) (cols : List column)
    (hf : fill ≠ '\n') (hs : '\n' ∉ sep) (_hw : ∀ c ∈ cols, 1 ≤ c.width) :
    (tabulate sep fill cols).count '\n' =
      listMax (cols.map (fun c => (tabulate sep fill [c]).count '\n')) := by
  have hmain : ∀ (csl : List column), (tabulate sep fill csl).count '\n' =
      listMax ((initStates csl).map rounds1) := by
    intro csl
    unfold tabulate
    rw [count_nl_tabulateAux sep fill hf hs _ _,
      tabulateRoundsAux_eq_listMax _ _ (Nat.le_refl _)]
  have hsingle : ∀ c : column, (tabulate sep fill [c]).count '\n' = rounds1 (c, ⟨0, 0⟩) := by
    intro c
    rw [hmain [c]]
    show max (rounds1 (c, ⟨0, 0⟩)) 0 = rounds1 (c, ⟨0, 0⟩)
    omega
  rw [hmain cols]
  unfold initStates
  rw [List.map_map]
  congr 1
  apply List.map_congr_left
  intro c hc
  exact (hsingle c).symm

theorem C6_line_count_witness :
    (tabulate [' '] ' ' [column.mk ['h', 'i', ' ', 'u'] 3, column.mk ['x'] 2]).count '\n' =
      listMax ([column.mk ['h', 'i', ' ', 'u'] 3, column.mk ['x'] 2].map
        (fun c => (tabulate [' '] ' ' [c]).count '\n')) :=
  C6_line_count [' '] ' ' [column.mk ['h', 'i', ' ', 'u'] 3, column.mk ['x'] 2]
    (by decide) (by decide) (by decide)

/-- C7: once a column is exhausted, `emit_col` writes nothing and leaves
the cursor unchanged, its per-line contribution is pure fill followed by
the separator, and an empty column next to a non-empty one ends on the
same final line as the non-empty one. -/
theorem C7_exhausted_idempotent :
    (∀ (c : column) (st : colstate), c.text.length ≤ st.cp →
      emit_col c st = (st, []) ∧
      ∀ (fill : Char) (sep : List Char), ∃ k,
        (emit_col c st).2 ++ switch_col (emit_col c st).1 c.width fill sep =
          List.replicate k fill ++ sep) ∧
    (∀ (w : Nat) (c : column),
      tabulateRounds [column.mk [] w, c] = tabulateRounds [c]) := by
  constructor
  · intro c st h
    have he := emit_col_at_end c st h
    refine ⟨he, ?_⟩
    intro fill sep
    by_cases hf : fill = '\t'
    · refine ⟨(c.width - st.lp + 7) / 8, ?_⟩
      rw [he]
      show [] ++ switch_col st c.width fill sep = _
      rw [List.nil_append, hf, switch_col_tab]
    · refine ⟨c.width - st.lp, ?_⟩
      rw [he]
      show [] ++ switch_col st c.width fill sep = _
      rw [List.nil_append, switch_col_eq st c.width fill sep hf]
  · intro w c
    unfold tabulateRounds
    rw [tabulateRoundsAux_of_le _ _ _ (Nat.le_refl _) (Nat.le_refl _),
      tabulateRoundsAux_eq_listMax _ _ (Nat.le_refl _),
      tabulateRoundsAux_eq_listMax _ _ (Nat.le_refl _)]
    show listMax [rounds1 (column.mk [] w, ⟨0, 0⟩), rounds1 (c, ⟨0, 0⟩)] =
      listMax [rounds1 (c, ⟨0, 0⟩)]
    have h0 : rounds1 (column.mk [] w, (⟨0, 0⟩ : colstate)) = 0 :=
      rounds1_end _ (Nat.le_refl 0)
    rw [listMax_cons, h0]
    show max 0 (max (rounds1 (c, ⟨0, 0⟩)) 0) = max (rounds1 (c, ⟨0, 0⟩)) 0
    omega

theorem C7_exhausted_idempotent_witness :
    emit_col (column.mk ['a'] 2) (colstate.mk 1 0) = (colstate.mk 1 0, []) ∧
    tabulateRounds [column.mk [] 4, column.mk ['a', 'b'] 1] =
      tabulateRounds [column.mk ['a', 'b'] 1] :=
  ⟨(C7_exhausted_idempotent.1 (column.mk ['a'] 2) (colstate.mk 1 0) (by decide)).1,
   C7_exhausted_idempotent.2 4 (column.mk ['a', 'b'] 1)⟩

/-- C9: the two convenience overloads write exactly what the full form
writes with the defaulted arguments (fill a space, separator one space). -/
theorem C9_overloads_identical :
    (∀ (sep : List Char) (cols : List column),
      tabulateSepOnly sep cols = tabulate sep ' ' cols) ∧
    (∀ (cols : List column), tabulateDefault cols = tabulate [' '] ' ' cols) :=
  ⟨fun _ _ => rfl, fun _ => rfl⟩

/-- C10: when every column's text is empty the exhaustion check fails
before the first round, so `tabulate` writes nothing at all. -/
theorem C10_all_empty_no_output (sep : List Char) (fill : Char) (cols : List column)
    (h : ∀ c ∈ cols, c.text = []) : tabulate sep fill cols = [] := by
  have hm : colsMeasure (initStates cols) = 0 := by
    unfold colsMeasure initStates
    rw [List.map_map]
    apply List.sum_eq_zero
    intro x hx
    rcases List.mem_map.mp hx with ⟨c, hc, hce⟩
    rw [← hce]
    show c.text.length - 0 = 0
    rw [h c hc]
    rfl
  unfold tabulate
  rw [hm]
  rfl

theorem C10_all_empty_no_output_witness :
    tabulate [' '] ' ' [column.mk [] 3, column.mk [] 1] = [] :=
  C10_all_empty_no_output [' '] ' ' [column.mk [] 3, column.mk [] 1] (by decide)

end tabulator

namespace tabulator

theorem takeWhile_length_mono (p q : Char → Bool) (hpq : ∀ x, p x = true → q x = true) :
    ∀ (l : List Char), (l.takeWhile p).length ≤ (l.takeWhile q).length := by
  intro l
  induction l with
  | nil => exact Nat.le_refl _
  | cons ch rest ih =>
    rw [List.takeWhile_cons, List.takeWhile_cons]
    by_cases hp : p ch = true
    · rw [if_pos hp, if_pos (hpq ch hp)]
      simp only [List.length_cons]
      omega
    · rw [if_neg hp]
      simp

theorem drop_succ_of_drop_cons (text : List Char) (cp : Nat) (ch : Char) (rest : List Char)
    (h : text.drop cp = ch :: rest) : text.drop (cp + 1) = rest := by
  rw [← List.tail_drop, h]
  rfl

theorem emitColAux_lp_bound (c : column) : ∀ (l : List Char) (st : colstate),
    c.text.drop st.cp = l →
    st.lp + (l.takeWhile (fun x => !brkChar x)).length ≤ c.width →
    (emitColAux c l st).1.lp ≤ c.width := by
  intro l
  induction l with
  | nil =>
    intro st _ hinv
    show st.lp ≤ c.width
    simp only [List.takeWhile_nil, List.length_nil] at hinv
    omega
  | cons ch rest ih =>
    intro st hlink hinv
    have hrest : c.text.drop (st.cp + 1) = rest :=
      drop_succ_of_drop_cons c.text st.cp ch rest hlink
    unfold emitColAux
    by_cases hb : linebreak ch c ⟨st.cp + 1, st.lp⟩ = true
    · rw [if_pos hb]
      show st.lp ≤ c.width
      omega
    · rw [if_neg hb]
      show (emitColAux c rest ⟨st.cp + 1, st.lp + 1⟩).1.lp ≤ c.width
      apply ih ⟨st.cp + 1, st.lp + 1⟩ hrest
      show st.lp + 1 + (rest.takeWhile (fun x => !brkChar x)).length ≤ c.width
      by_cases hbrk : brkChar ch = true
      · have hnl : ch ≠ '\n' := by
          intro he
          apply hb
          unfold linebreak
          rw [he]
          simp
        have hws : isws ch = true := by
          unfold brkChar at hbrk
          rw [Bool.or_eq_true, beq_iff_eq] at hbrk
          rcases hbrk with h1 | h1
          · exact absurd h1 hnl
          · exact h1
        have hfits : nextWordFits c ⟨st.cp + 1, st.lp⟩ = true := by
          have hlbf : linebreak ch c ⟨st.cp + 1, st.lp⟩ = false := Bool.eq_false_iff.mpr hb
          unfold linebreak at hlbf
          rw [Bool.or_eq_false_iff] at hlbf
          have h2 := hlbf.2
          rw [hws, Bool.true_and] at h2
          rcases Bool.eq_false_or_eq_true (nextWordFits c ⟨st.cp + 1, st.lp⟩) with h3 | h3
          · exact h3
          · rw [h3] at h2
            exact absurd h2 (by simp)
        have hsf : scanFits c.width (c.text.drop (st.cp + 1)) st.lp = true := hfits
        rw [hrest] at hsf
        have h2 := (scanFits_iff c.width rest st.lp).mp hsf
        have h3 : (rest.takeWhile (fun x => !brkChar x)).length ≤
            (rest.takeWhile (fun x => !isws x)).length := by
          apply takeWhile_length_mono
          intro x hx
          rw [Bool.not_eq_true'] at hx ⊢
          unfold brkChar at hx
          rw [Bool.or_eq_false_iff] at hx
          exact hx.2
        omega
      · have hbf : brkChar ch = false := Bool.eq_false_iff.mpr hbrk
        simp only [List.takeWhile_cons, hbf, Bool.not_false, if_true,
          List.length_cons] at hinv
        omega

theorem colSegmentsAux_len_bound (c : column)
    (hword : ∀ p : Nat, p < c.text.length →
      ((c.text.drop p).takeWhile (fun x => !brkChar x)).length ≤ c.width) :
    ∀ (n : Nat) (st : colstate), st.lp = 0 →
    ∀ s ∈ colSegmentsAux c n st, s.length ≤ c.width := by
  intro n
  induction n with
  | zero =>
    intro st _ s hs
    simp [colSegmentsAux] at hs
  | succ n ih =>
    intro st hlp s hs
    unfold colSegmentsAux at hs
    by_cases hcp : st.cp < c.text.length
    · rw [if_pos hcp] at hs
      rcases List.mem_cons.mp hs with h1 | h1
      · have hlpb : (emit_col c st).1.lp ≤ c.width := by
          apply emitColAux_lp_bound c (c.text.drop st.cp) st rfl
          rw [hlp, Nat.zero_add]
          exact hword st.cp hcp
        have hlen := emitColAux_lp_len c (c.text.drop st.cp) st
        rw [h1]
        show (emit_col c st).2.length ≤ c.width
        have hl2 : (emit_col c st).1.lp = st.lp + (emit_col c st).2.length := hlen
        omega
      · exact ih (breakLine (emit_col c st).1) rfl s h1
    · rw [if_neg hcp] at hs
      simp at hs

/-- C3 counterexample: with a space fill (not a tab), the oversized single
word of the text "abcde" in a width-4 column is emitted whole on one line:
the segment ends with line position 5, exceeding the declared width 4, so
emitted character counts can exceed the width without any tab fill. -/
theorem C3_overflow_counterexample :
    (emit_col (column.mk ['a', 'b', 'c', 'd', 'e'] 4) (colstate.mk 0 0)).1.lp = 5 ∧
    ¬ (emit_col (column.mk ['a', 'b', 'c', 'd', 'e'] 4) (colstate.mk 0 0)).1.lp ≤ 4 := by
  decide

/-- C3 amended: a column segment's emitted character count can only exceed
the declared width through an oversized word; whenever every word (maximal
run of non-break characters) of the column's text is at most the width
long, every per-line segment of the column emits at most width
characters.  (Tab fill never affects the emitted count, as `switch_col`
does not change `lp`.) -/
theorem C3_no_overflow_amended (c : column)
    (hword : ∀ p : Nat, p < c.text.length →
      ((c.text.drop p).takeWhile (fun x => !brkChar x)).length ≤ c.width) :
    ∀ s ∈ colSegments c, s.length ≤ c.width := by
  unfold colSegments
  exact colSegmentsAux_len_bound c hword c.text.length ⟨0, 0⟩ rfl

theorem C3_no_overflow_amended_witness :
    (['c', 'd'] : List Char).length ≤ (column.mk ['a', 'b', ' ', 'c', 'd'] 2).width :=
  C3_no_overflow_amended (column.mk ['a', 'b', ' ', 'c', 'd'] 2) (by decide)
    ['c', 'd'] (by decide)

end tabulator

namespace tabulator

theorem not_linebreak_of_not_brk (ch : Char) (c : column) (st : colstate)
    (h : brkChar ch = false) : linebreak ch c st = false := by
  unfold brkChar at h
  rw [Bool.or_eq_false_iff] at h
  unfold linebreak
  rw [h.1, h.2]
  rfl

theorem emitColAux_tw_prefix (c : column) : ∀ (l : List Char) (st : colstate),
    ∃ tail, (emitColAux c l st).2 = l.takeWhile (fun x => !brkChar x) ++ tail := by
  intro l
  induction l with
  | nil => intro st; exact ⟨[], rfl⟩
  | cons ch rest ih =>
    intro st
    by_cases hbrk : brkChar ch = true
    · refine ⟨(emitColAux c (ch :: rest) st).2, ?_⟩
      rw [List.takeWhile_cons]
      have hcond : (!brkChar ch) = false := by rw [hbrk]; rfl
      rw [hcond]
      simp
    · have hbf : brkChar ch = false := Bool.eq_false_iff.mpr hbrk
      have hlb : linebreak ch c ⟨st.cp + 1, st.lp⟩ = false :=
        not_linebreak_of_not_brk ch c ⟨st.cp + 1, st.lp⟩ hbf
      obtain ⟨tail, htail⟩ := ih ⟨st.cp + 1, st.lp + 1⟩
      refine ⟨tail, ?_⟩
      unfold emitColAux
      rw [if_neg (by rw [hlb]; exact Bool.false_ne_true)]
      show ch :: (emitColAux c rest ⟨st.cp + 1, st.lp + 1⟩).2 =
        (ch :: rest).takeWhile (fun x => !brkChar x) ++ tail
      rw [List.takeWhile_cons]
      have hcond : (!brkChar ch) = true := by rw [hbf]; rfl
      rw [hcond]
      simp [htail]

theorem takeWhile_length_ge (p : Char → Bool) : ∀ (l : List Char) (k : Nat), k ≤ l.length →
    (∀ i, i < k → p (l.getD i ' ') = true) → k ≤ (l.takeWhile p).length := by
  intro l
  induction l with
  | nil =>
    intro k hk _
    simp only [List.length_nil] at hk
    omega
  | cons ch rest ih =>
    intro k hk hp
    cases k with
    | zero => exact Nat.zero_le _
    | succ j =>
      have h0 : p ch = true := by
        have h1 := hp 0 (Nat.succ_pos j)
        simpa using h1
      rw [List.takeWhile_cons, if_pos h0]
      simp only [List.length_cons]
      apply Nat.succ_le_succ
      apply ih j (by simp only [List.length_cons] at hk; omega)
      intro i hi
      have h2 := hp (i + 1) (by omega)
      simpa using h2

theorem getD_drop_eq (text : List Char) (nn i : Nat) (d : Char) (h : nn + i < text.length) :
    (text.drop nn).getD i d = text.getD (nn + i) d := by
  have h1 : i < (text.drop nn).length := by
    rw [List.length_drop]
    omega
  rw [List.getD_eq_getElem _ d h1, List.getD_eq_getElem _ d h]
  exact List.getElem_drop text

theorem emitColAux_word (c : column) : ∀ (l : List Char) (st : colstate) (a b : Nat),
    c.text.drop st.cp = l → st.cp ≤ a → a < b → b ≤ c.text.length →
    (∀ i, i < b → a ≤ i → brkChar (c.text.getD i ' ') = false) →
    a < (emitColAux c l st).1.cp →
    ∃ pre post, (emitColAux c l st).2 = pre ++ wordSlice c a b ++ post := by
  intro l
  induction l with
  | nil =>
    intro st a b hlink hsa hab hbl hnb hfin
    exfalso
    have hfcp : (emitColAux c [] st).1.cp = st.cp := rfl
    omega
  | cons ch rest ih =>
    intro st a b hlink hsa hab hbl hnb hfin
    have hcp : st.cp < c.text.length := by
      by_contra hc
      rw [List.drop_eq_nil_of_le (by omega)] at hlink
      exact List.noConfusion hlink
    have hrest : c.text.drop (st.cp + 1) = rest :=
      drop_succ_of_drop_cons c.text st.cp ch rest hlink
    by_cases heq : st.cp = a
    · subst heq
      obtain ⟨tail, htail⟩ := emitColAux_tw_prefix c (ch :: rest) st
      have hlen : (ch :: rest).length = c.text.length - st.cp := by
        rw [← hlink, List.length_drop]
      have htw : b - st.cp ≤ ((ch :: rest).takeWhile (fun x => !brkChar x)).length := by
        apply takeWhile_length_ge
        · rw [hlen]
          omega
        · intro i hi
          show (!brkChar ((ch :: rest).getD i ' ')) = true
          have hgd : (ch :: rest).getD i ' ' = c.text.getD (st.cp + i) ' ' := by
            rw [← hlink]
            exact getD_drop_eq c.text st.cp i ' ' (by omega)
          rw [hgd, hnb (st.cp + i) (by omega) (by omega)]
          rfl
      refine ⟨[], (emitColAux c (ch :: rest) st).2.drop (b - st.cp), ?_⟩
      rw [List.nil_append]
      conv_lhs => rw [← List.take_append_drop (b - st.cp) (emitColAux c (ch :: rest) st).2]
      congr 1
      rw [htail, List.take_append_of_le_length htw]
      unfold wordSlice
      conv_rhs => rw [hlink]
      conv_rhs => rw [← List.takeWhile_append_dropWhile (fun x => !brkChar x) (ch :: rest)]
      rw [List.take_append_of_le_length htw]
    · have hlt : st.cp < a := by omega
      unfold emitColAux at hfin ⊢
      by_cases hb : linebreak ch c ⟨st.cp + 1, st.lp⟩ = true
      · rw [if_pos hb] at hfin
        exfalso
        have hfin2 : a < st.cp + 1 := hfin
        omega
      · rw [if_neg hb] at hfin ⊢
        have hfin2 : a < (emitColAux c rest ⟨st.cp + 1, st.lp + 1⟩).1.cp := hfin
        obtain ⟨pre, post, hout⟩ :=
          ih ⟨st.cp + 1, st.lp + 1⟩ a b hrest (show st.cp + 1 ≤ a by omega) hab hbl hnb hfin2
        refine ⟨ch :: pre, post, ?_⟩
        show ch :: (emitColAux c rest ⟨st.cp + 1, st.lp + 1⟩).2 =
          (ch :: pre) ++ wordSlice c a b ++ post
        rw [hout]
        rfl

theorem colSegmentsAux_word (c : column) (a b : Nat) (hab : a < b) (hbl : b ≤ c.text.length)
    (hnb : ∀ i, i < b → a ≤ i → brkChar (c.text.getD i ' ') = false) :
    ∀ (n : Nat) (st : colstate), st.cp ≤ a → c.text.length - st.cp ≤ n →
    ∃ r pre post, (colSegmentsAux c n st).get? r = some (pre ++ wordSlice c a b ++ post) := by
  intro n
  induction n with
  | zero =>
    intro st hsa hfuel
    exfalso
    omega
  | succ n ih =>
    intro st hsa hfuel
    have hcp : st.cp < c.text.length := by omega
    unfold colSegmentsAux
    rw [if_pos hcp]
    by_cases hadv : a < (emit_col c st).1.cp
    · obtain ⟨pre, post, hout⟩ :=
        emitColAux_word c (c.text.drop st.cp) st a b rfl hsa hab hbl hnb hadv
      refine ⟨0, pre, post, ?_⟩
      rw [List.get?_cons_zero]
      exact congrArg some hout
    · have hadv1 := emit_col_advance c st hcp
      have hble : (breakLine (emit_col c st).1).cp = (emit_col c st).1.cp := rfl
      obtain ⟨r, pre, post, hr⟩ := ih (breakLine (emit_col c st).1) (by omega) (by omega)
      refine ⟨r + 1, pre, post, ?_⟩
      rw [List.get?_cons_succ]
      exact hr

/-- C4: word integrity: every word — a maximal run of non-break characters
`[a, b)` of a column's text — appears contiguously inside one per-line
segment of that column, so no word is ever split across two lines of the
same column; nothing bounds the word's length by the width, so a word
longer than the width is likewise emitted on one line unbroken. -/
theorem C4_word_never_split (c : column) (a b : Nat) (hab : a < b) (hbl : b ≤ c.text.length)
    (hnb : ∀ i, i < b → a ≤ i → brkChar (c.text.getD i ' ') = false)
    (_hmaxl : a = 0 ∨ brkChar (c.text.getD (a - 1) ' ') = true)
    (_hmaxr : b = c.text.length ∨ brkChar (c.text.getD b ' ') = true) :
    ∃ r pre post, (colSegments c).get? r = some (pre ++ wordSlice c a b ++ post) := by
  unfold colSegments
  exact colSegmentsAux_word c a b hab hbl hnb c.text.length ⟨0, 0⟩ (Nat.zero_le a) (by omega)

theorem C4_word_never_split_witness :
    ∃ r pre post, (colSegments (column.mk ['a', 'b', ' ', 'c', 'd'] 2)).get? r =
      some (pre ++ wordSlice (column.mk ['a', 'b', ' ', 'c', 'd'] 2) 3 5 ++ post) :=
  C4_word_never_split (column.mk ['a', 'b', ' ', 'c', 'd'] 2) 3 5 (by decide) (by decide)
    (by decide) (by decide) (by decide)

/-- C8 counterexample: on the spec scenario's first column ("abc def ghi",
width 6) the successive per-line segments are "abc", "def", "ghi" — the
first segment is not "abc def" (seven characters never pass the fits test
at width 6), refuting the claimed wrap "abc def" / "ghi". -/
theorem C8_first_column_counterexample :
    colSegments (column.mk ['a', 'b', 'c', ' ', 'd', 'e', 'f', ' ', 'g', 'h', 'i'] 6) =
      [['a', 'b', 'c'], ['d', 'e', 'f'], ['g', 'h', 'i']] ∧
    colSegments (column.mk ['a', 'b', 'c', ' ', 'd', 'e', 'f', ' ', 'g', 'h', 'i'] 6) ≠
      [['a', 'b', 'c', ' ', 'd', 'e', 'f'], ['g', 'h', 'i']] := by
  decide

/-- C8 amended: on the spec scenario the first column wraps as "abc",
"def", "ghi", the second column breaks after "123" because "4432" does not
fit, and the complete output is this fixed character sequence — the
function is deterministic, so two runs on the same input coincide. -/
theorem C8_example_output :
    tabulate [' ', '|', ' '] ' '
      [column.mk ['a', 'b', 'c', ' ', 'd', 'e', 'f', ' ', 'g', 'h', 'i'] 6,
       column.mk ['1', '2', '3', ' ', '4', '4', '3', '2', ' ', '1', '7', ' ',
         '8', '9', '8', '9'] 4] =
      ['a', 'b', 'c', ' ', ' ', ' ', ' ', '|', ' ', '1', '2', '3', '\n',
       'd', 'e', 'f', ' ', ' ', ' ', ' ', '|', ' ', '4', '4', '3', '2', '\n',
       'g', 'h', 'i', ' ', ' ', ' ', ' ', '|', ' ', '1', '7', '\n',
       ' ', ' ', ' ', ' ', ' ', ' ', ' ', '|', ' ', '8', '9', '8', '9', '\n'] := by
  decide

end tabulator
